import Mathlib

/-!
Shallow embedding of the iq-fit-solver repository (src/shapes.py and
src/iq_solver.py) and proofs about it.

Conventions of the embedding:
* Python `set[tuple[int, int]]` becomes `Finset (Int × Int)`.
* Python code that can raise (`min()` of an empty sequence, `ValueError` for a
  bad rotation, a missing dict key) is modelled with `Option`: `none` is the
  raised exception.
* Python dicts become association lists (`List (key × value)`); a dict
  comprehension that collapses duplicate keys keeps the last value, and its
  key view keeps first-insertion order.
* The external MIP backend (pulp + solver) is modelled as an oracle
  `List cut → Option (variable → ℚ)`: given the no-good cuts added so far it
  either reports a non-feasible status (`none`) or an assignment of the
  decision variables.  Rational values stand in for the floats pulp reports.
* Rational arithmetic that must evaluate inside the kernel is done with
  `mkRat`/`Rat.neg` based helpers (`qsub`, `qabs`); they are proved equal to
  the Mathlib operations.
-/

/-- A grid point `(row, col)`, Python `tuple[int, int]`. -/
abbrev Pt := Int × Int

/-- Python `TPointSet = set[tuple[int, int]]`. -/
abbrev PointSet := Finset Pt

/-- `ShapeTemplate.VALID_ROTATIONS = {0, 90, 180, 270}` from src/shapes.py. -/
def VALID_ROTATIONS : Finset Int := {0, 90, 180, 270}

/-- The per-point transform applied in the rotation loop of
`ShapeTemplate.layout_rotated` (src/shapes.py lines 79-85): 90° sends
`(row, col)` to `(col, -row)`, 180° to `(-row, -col)`, and the remaining
valid case 270° to `(-col, row)`.  Callers only use it for
rotation ∈ {90, 180, 270}. -/
def rotatePoint (rotation : Int) (p : Pt) : Pt :=
  if rotation = 90 then (p.2, -p.1)
  else if rotation = 180 then (-p.1, -p.2)
  else (-p.2, p.1)

/-- The "Normalize back to origin" step of `layout_rotated`
(src/shapes.py lines 87-90): subtract the minimum row and minimum column.
Python computes `min(...)` of the point set, which raises on an empty set,
hence the `none` branch. -/
def normalizePointSet (s : PointSet) : Option PointSet :=
  if h : s.Nonempty then
    some (s.image (fun p =>
      (p.1 - (s.image Prod.fst).min' (h.image Prod.fst),
       p.2 - (s.image Prod.snd).min' (h.image Prod.snd))))
  else none

/-- `ShapeTemplate.layout_rotated` (src/shapes.py lines 72-91).  A rotation
outside `VALID_ROTATIONS` raises `ValueError` (`none`); rotation 0 returns
the layout unchanged (without renormalizing); otherwise every point is
transformed and the result is normalized back to the origin. -/
def layout_rotated (layout : PointSet) (rotation : Int) : Option PointSet :=
  if rotation ∉ VALID_ROTATIONS then none
  else if rotation = 0 then some layout
  else normalizePointSet (layout.image (rotatePoint rotation))

/-- Translation of a point set by an offset; used to reason about
normalization. -/
def translateSet (t : Pt) (s : PointSet) : PointSet :=
  s.image (fun p => (p.1 + t.1, p.2 + t.2))

/-- The 90° point transform applied to a whole set. -/
def rot90set (s : PointSet) : PointSet := s.image (rotatePoint 90)

/-- One application of the 90° rotation of `layout_rotated`. -/
def rot90 (s : PointSet) : Option PointSet := layout_rotated s 90

/-- Four successive applications of the 90° rotation of `layout_rotated`;
any intermediate exception propagates. -/
def rotFour (s : PointSet) : Option PointSet :=
  (rot90 s).bind fun s1 => (rot90 s1).bind fun s2 => (rot90 s2).bind fun s3 => rot90 s3

/-- The bounding box of the set touches `(0, 0)`: all coordinates are
nonnegative, the minimum row is 0 and the minimum column is 0 (both attained). -/
abbrev MinZero (s : PointSet) : Prop :=
  (∀ p ∈ s, 0 ≤ p.1 ∧ 0 ≤ p.2) ∧ (∃ p ∈ s, p.1 = 0) ∧ (∃ p ∈ s, p.2 = 0)

/-- `ShapeTemplate` (src/shapes.py lines 66-69): a name and a dict from
layout index to point set, modelled as an association list. -/
structure ShapeTemplate where
  name : String
  layouts : List (Nat × PointSet)
deriving DecidableEq

/-- The key set of the `layouts` dict of a `ShapeTemplate`. -/
def layoutKeys (t : ShapeTemplate) : Finset Nat :=
  (t.layouts.map Prod.fst).toFinset

/-- `ShapeTemplate.__hash__` (src/shapes.py lines 93-98) computes
`hash(self.name) + hash(frozenset({k: frozenset(sorted(v)) for k, v in
sorted(self.layouts.items())}))`.  Python's `frozenset` applied to a dict
iterates only the dict's KEYS, so the inner comprehension's values (the
layout point sets) are discarded and the second summand is a function of the
key set alone.  The two opaque Python hash primitives (hash of a string,
hash of a frozenset of ints) are abstracted as parameters. -/
def shapeTemplateHash (hashStr : String → Int) (hashKeySet : Finset Nat → Int)
    (t : ShapeTemplate) : Int :=
  hashStr t.name + hashKeySet (layoutKeys t)

/-- `ShapeInstance` (src/shapes.py lines 114-118). -/
structure ShapeInstance where
  template : ShapeTemplate
  current_layout : Nat := 0
  current_rotation : Int := 0
deriving DecidableEq

/-- `ShapeInstance.get_current_grid` (src/shapes.py lines 126-129): look the
current layout up in the template's dict (KeyError → `none`) and rotate it. -/
def ShapeInstance.get_current_grid (si : ShapeInstance) : Option PointSet :=
  (si.template.layouts.lookup si.current_layout).bind
    (fun l => layout_rotated l si.current_rotation)

/-- `ShapeInstance.fill_grid` (src/shapes.py lines 131-143): the dict mapping
each cell of the current rotated layout to the template's name.  Python
computes `min`/`max` of the layout for the loop bounds, which raises on an
empty layout, hence the emptiness guard; the resulting dict's keys are
exactly the layout's cells and every value is the name. -/
def ShapeInstance.fill_grid (si : ShapeInstance) : Option (Finset (Pt × String)) :=
  si.get_current_grid.bind fun cells =>
    if cells.Nonempty then some (cells.image (fun p => (p, si.template.name)))
    else none

/-- `Board` (src/iq_solver.py lines 29-35): fixed dimensions (default 5 rows,
10 columns) and a dict from anchor cell to the list of `ShapeInstance`s
anchored there, modelled as an association list. -/
structure Board where
  shape_board : Nat × Nat := (5, 10)
  placements : List (Pt × List ShapeInstance) := []
deriving DecidableEq

/-- Shift an instance's cell→name grid by an anchor offset, as
`Board.fill_grid` does with `(placement[0] + row, placement[1] + col)`. -/
def shiftGrid (anchor : Pt) (g : Finset (Pt × String)) : Finset (Pt × String) :=
  g.image (fun e => ((anchor.1 + e.1.1, anchor.2 + e.1.2), e.2))

/-- The inner loop of `Board.fill_grid` over the instances anchored at one
cell: union of each instance's shifted grid.  Any instance exception
propagates. -/
def gridOfInstances (anchor : Pt) : List ShapeInstance → Option (Finset (Pt × String))
  | [] => some ∅
  | si :: rest => do
      let g ← si.fill_grid
      let gr ← gridOfInstances anchor rest
      pure (shiftGrid anchor g ∪ gr)

/-- The outer loop of `Board.fill_grid` over all anchors. -/
def gridOfPlacements : List (Pt × List ShapeInstance) → Option (Finset (Pt × String))
  | [] => some ∅
  | (anchor, sis) :: rest => do
      let g ← gridOfInstances anchor sis
      let gr ← gridOfPlacements rest
      pure (g ∪ gr)

/-- `Board.fill_grid` (src/iq_solver.py lines 37-48): the mapping from
absolute cell to the set of names of shapes covering it, modelled as the
finite set of (cell, name) pairs. -/
def Board.fill_grid (b : Board) : Option (Finset (Pt × String)) :=
  gridOfPlacements b.placements

/-- `Board.occupied_cells` (src/iq_solver.py lines 50-51): the keys of
`fill_grid`.  Python returns them as a sorted list; only membership is ever
used, so the key set is kept. -/
def Board.occupied_cells (b : Board) : Option (Finset Pt) :=
  b.fill_grid.map (Finset.image Prod.fst)

/-- The set of names covering one cell in a computed grid, Python
`grid[(row, col)]`. -/
def gridCellNames (g : Finset (Pt × String)) (cell : Pt) : Finset String :=
  (g.filter (fun e => e.1 = cell)).image Prod.snd

/-- The per-cell test of `Board.is_valid_placement` (src/iq_solver.py lines
55-61): at most one covering name, and the cell within
`[0, rows) × [0, cols)`. -/
abbrev validCell (b : Board) (g : Finset (Pt × String)) (cell : Pt) : Prop :=
  (gridCellNames g cell).card ≤ 1 ∧
    0 ≤ cell.1 ∧ cell.1 < (b.shape_board.1 : Int) ∧
    0 ≤ cell.2 ∧ cell.2 < (b.shape_board.2 : Int)

/-- `Board.is_valid_placement` (src/iq_solver.py lines 53-62): true iff every
cell of the filled grid passes `validCell`. -/
def Board.is_valid_placement (b : Board) : Option Bool :=
  b.fill_grid.map fun g => decide (∀ cell ∈ g.image Prod.fst, validCell b g cell)

/-- The absolute cells covered by one instance anchored at `anchor`; the keys
of its shifted `fill_grid`. -/
def instanceAbsCells (anchor : Pt) (si : ShapeInstance) : Option (Finset Pt) :=
  si.fill_grid.map (fun g => (shiftGrid anchor g).image Prod.fst)

/-- `get_occupied_cells` (src/iq_solver.py lines 150-163): build a fresh
default board holding a single placement and return its occupied cells. -/
def get_occupied_cells (t : ShapeTemplate) (layout_idx : Nat) (rotation : Int)
    (row col : Int) : Option (Finset Pt) :=
  Board.occupied_cells ⟨(5, 10), [((row, col), [⟨t, layout_idx, rotation⟩])]⟩

/-- `SHAPE_LG` from src/shapes.py. -/
def SHAPE_LG : ShapeTemplate :=
  ⟨"light_green",
    [(0, {(0, 0), (1, 0), (2, 0), (2, 1)}),
     (1, {(0, 0), (0, 1), (1, 1), (2, 0), (2, 1)})]⟩

/-- `SHAPE_DG` from src/shapes.py. -/
def SHAPE_DG : ShapeTemplate :=
  ⟨"dark_green",
    [(0, {(0, 1), (1, 0), (1, 1), (2, 1)}),
     (1, {(0, 0), (1, 0), (1, 1), (2, 0), (2, 1)})]⟩

/-! The MIP model of `mip_solver` (src/iq_solver.py lines 166-392). -/

/-- `layout_versions = [0, 1]` (src/iq_solver.py line 172). -/
def layout_versions : List Nat := [0, 1]

/-- `rotations = [0, 90, 180, 270]` (src/iq_solver.py line 173). -/
def rotationValues : List Int := [0, 90, 180, 270]

/-- The row indices `range(init_board.shape_board[0])` as integers. -/
def boardRows (b : Board) : List Int :=
  (List.range b.shape_board.1).map Int.ofNat

/-- The column indices `range(init_board.shape_board[1])` as integers. -/
def boardCols (b : Board) : List Int :=
  (List.range b.shape_board.2).map Int.ofNat

/-- All board cells, in the row-major order of the Python loops. -/
def boardCellsList (b : Board) : List Pt :=
  (boardRows b).flatMap fun r => (boardCols b).map fun c => (r, c)

/-- The key view of `shape_name_map = {shape.name: shape for shape in
shapes_to_place}` (src/iq_solver.py lines 174-175): names in first-insertion
order, duplicates silently collapsed as a Python dict does. -/
def shape_names (shapes : List ShapeTemplate) : List String :=
  shapes.foldl (fun acc s => if s.name ∈ acc then acc else acc ++ [s.name]) []

/-- The value view of `shape_name_map`: for a duplicated name the LAST
template in the list wins, as in a Python dict comprehension. -/
def shape_name_map (shapes : List ShapeTemplate) (n : String) : Option ShapeTemplate :=
  (shapes.filter (fun s => s.name = n)).getLast?

/-- One decision-variable index `(shape name, layout, rotation, row, col)`,
the tuples stored in `selected_positions` (src/iq_solver.py line 357). -/
abbrev MipVar := String × Nat × Int × Int × Int

/-- Shortcut instance; the nested synthesis otherwise exceeds the search
size limit. -/
instance : DecidableEq (List (List MipVar)) := instDecidableEqList

/-- The decision-variable index set of the model: the Cartesian product
`shape_names × layout_versions × rotations × rows × cols`
(src/iq_solver.py lines 179-189). -/
def modelConfigs (shapes : List ShapeTemplate) (b : Board) : List MipVar :=
  (shape_names shapes).flatMap fun n =>
    layout_versions.flatMap fun l =>
      rotationValues.flatMap fun r =>
        (boardRows b).flatMap fun row =>
          (boardCols b).map fun col => (n, l, r, row, col)

/-- Whether one configuration's occupied cells include a given board cell,
the test `(row, col) in get_occupied_cells(shape_name_map[shape], ...)`
used to build `covering_configs` (src/iq_solver.py lines 281-296). -/
def configCovers (shapes : List ShapeTemplate) (cell : Pt) (v : MipVar) : Bool :=
  match v with
  | (n, l, r, row, col) =>
    match shape_name_map shapes n with
    | some t =>
      match get_occupied_cells t l r row col with
      | some s => decide (cell ∈ s)
      | none => false
    | none => false

/-- The pre-occupied indicator `occupied_already` (src/iq_solver.py lines
269-274): 1 if the cell is among the initial board's occupied cells, else 0. -/
def occupiedAlready (occ : Finset Pt) (cell : Pt) : Nat :=
  if cell ∈ occ then 1 else 0

/-- The coverage count of a cell under an assignment `x` of the decision
variables: the pre-occupied indicator plus the sum of `x` over all
configurations whose occupied cells include the cell — the right-hand side
of the `Link_y_Cell` constraints (src/iq_solver.py lines 299-307). -/
def coverCount (shapes : List ShapeTemplate) (b : Board) (occ : Finset Pt)
    (x : MipVar → Nat) (cell : Pt) : Nat :=
  occupiedAlready occ cell +
    (((modelConfigs shapes b).filter (configCovers shapes cell)).map x).sum

/-- Satisfaction of the `Link_y_Cell_{row}_{col}` equality constraints:
`y[row, col] == occupied_already + lpSum(covering x)` for every board cell. -/
abbrev LinkConstraintsSat (shapes : List ShapeTemplate) (b : Board) (occ : Finset Pt)
    (x : MipVar → Nat) (y : Pt → Nat) : Prop :=
  ∀ cell ∈ boardCellsList b, y cell = coverCount shapes b occ x cell

/-- Satisfaction of the `No_Overlap_Cell_{row}_{col}` constraints:
`y[row, col] <= 1` for every board cell (src/iq_solver.py line 312). -/
abbrev NoOverlapConstraintsSat (b : Board) (y : Pt → Nat) : Prop :=
  ∀ cell ∈ boardCellsList b, y cell ≤ 1

/-- Satisfaction of the `MustCover_Cell_{row}_{col}` constraints:
`y[row, col] == 1` for every board cell (src/iq_solver.py line 314). -/
abbrev MustCoverConstraintsSat (b : Board) (y : Pt → Nat) : Prop :=
  ∀ cell ∈ boardCellsList b, y cell = 1

/-- The coverage part of the model exactly as `mip_solver` builds it
(src/iq_solver.py lines 299-314): the linking equalities, the `<= 1`
inequalities, and — only when `allow_holes` is false — the `== 1`
equalities. -/
abbrev CoverageModelSat (shapes : List ShapeTemplate) (b : Board) (occ : Finset Pt)
    (allow_holes : Bool) (x : MipVar → Nat) (y : Pt → Nat) : Prop :=
  LinkConstraintsSat shapes b occ x y ∧ NoOverlapConstraintsSat b y ∧
    (allow_holes = false → MustCoverConstraintsSat b y)

/-! The solution-enumeration loop of `mip_solver`
(src/iq_solver.py lines 335-392). -/

/-- Kernel-computable subtraction on `ℚ` (proved equal to `Sub.sub`). -/
def qsub (a b : ℚ) : ℚ := mkRat (a.num * b.den - b.num * a.den) (a.den * b.den)

/-- Kernel-computable absolute value on `ℚ` (proved equal to `abs`). -/
def qabs (q : ℚ) : ℚ := if q < 0 then Rat.neg q else q

/-- The read-back tolerance `1e-6` of src/iq_solver.py line 355. -/
def mipTolerance : ℚ := mkRat 1 1000000

/-- The read-back test `abs(val - 1.0) < 1e-6` (src/iq_solver.py line 355). -/
def nearOne (v : ℚ) : Bool := decide (qabs (qsub v 1) < mipTolerance)

/-- The solution read-back of `mip_solver` (src/iq_solver.py lines 347-358):
walk all decision variables in their enumeration order and keep exactly
those whose backend value is within `1e-6` of 1.  Values outside the
tolerance — including fractional ones — are silently skipped. -/
def selectedPositions (allVars : List MipVar) (a : MipVar → ℚ) : List MipVar :=
  allVars.filter (fun v => nearOne (a v))

/-- The order in which the read-back walks the decision variables
(src/iq_solver.py lines 348-353): `shapes_to_place` (not the deduplicated
names) × layouts × rotations × rows × cols. -/
def extractionVars (shapes : List ShapeTemplate) (b : Board) : List MipVar :=
  shapes.flatMap fun s =>
    layout_versions.flatMap fun l =>
      rotationValues.flatMap fun r =>
        (boardRows b).flatMap fun row =>
          (boardCols b).map fun col => (s.name, l, r, row, col)

/-- The `while True` enumeration loop of `mip_solver` (src/iq_solver.py
lines 338-386), one step per solve:
* ask the backend (`oracle`) given the cuts added so far; a status that is
  neither "Optimal" nor "Feasible" is `none` and breaks the loop;
* read back the selected positions and append them as the next solution;
* stop if `max_solutions` solutions have been collected;
* otherwise add the cut `sum(selected) <= len(selected) - 1` — recorded
  here as the selected-variable list itself — and iterate.
The loop body runs at most `max_solutions + 1` times (`fuel` is initialized
to that), so the fuel-exhaustion branch is never taken.  Returns the
solution list and the list of cuts added, in order. -/
def enumLoop (allVars : List MipVar)
    (oracle : List (List MipVar) → Option (MipVar → ℚ)) (max_solutions : Nat) :
    Nat → List (List MipVar) → List (List MipVar) →
      List (List MipVar) × List (List MipVar)
  | 0, cuts, sols => (sols, cuts)
  | fuel + 1, cuts, sols =>
    match oracle cuts with
    | none => (sols, cuts)
    | some a =>
      if max_solutions ≤ (sols ++ [selectedPositions allVars a]).length then
        (sols ++ [selectedPositions allVars a], cuts)
      else
        enumLoop allVars oracle max_solutions fuel
          (cuts ++ [selectedPositions allVars a])
          (sols ++ [selectedPositions allVars a])

/-- The enumeration loop as entered by `mip_solver`: empty cut and solution
lists, decision variables walked in extraction order. -/
def mipEnumeration (init_board : Board) (shapes : List ShapeTemplate)
    (oracle : List (List MipVar) → Option (MipVar → ℚ)) (max_solutions : Nat) :
    List (List MipVar) × List (List MipVar) :=
  enumLoop (extractionVars shapes init_board) oracle max_solutions
    (max_solutions + 1) [] []

/-- The return value of `mip_solver` (src/iq_solver.py lines 388-392), at the
level of the (shape, layout, rotation, anchor) selections its Boards carry:
`None` when no solutions were collected, otherwise the nonempty list. -/
def mip_solver_selections (init_board : Board) (shapes : List ShapeTemplate)
    (oracle : List (List MipVar) → Option (MipVar → ℚ)) (max_solutions : Nat) :
    Option (List (List MipVar)) :=
  if (mipEnumeration init_board shapes oracle max_solutions).1 = [] then none
  else some (mipEnumeration init_board shapes oracle max_solutions).1

/-- An honest exact backend for the binary program: whenever it reports a
solution it assigns every binary decision variable 0 or 1, and the
assignment satisfies every `Exclude_Solution` cut added so far
(`sum(x of cut) <= len(cut) - 1`, src/iq_solver.py lines 375-384). -/
def HonestOracle (oracle : List (List MipVar) → Option (MipVar → ℚ)) : Prop :=
  ∀ cuts a, oracle cuts = some a →
    (∀ v, a v = 0 ∨ a v = 1) ∧
    ∀ cut ∈ cuts, ((cut.map a).sum ≤ (cut.length : ℚ) - 1)

/-! Concrete objects used by witnesses and counterexamples. -/

/-- A `light_green` instance with layout 0 and rotation 0. -/
def siLG : ShapeInstance := ⟨SHAPE_LG, 0, 0⟩

/-- A `dark_green` instance with layout 0 and rotation 0. -/
def siDG : ShapeInstance := ⟨SHAPE_DG, 0, 0⟩

/-- A board holding the same `light_green` placement twice, at anchors
`(0,0)` and `(1,0)`: their occupied cells overlap but carry the same name. -/
def boardSameName : Board := ⟨(5, 10), [((0, 0), [siLG]), ((1, 0), [siLG])]⟩

/-- A board holding overlapping `light_green` and `dark_green` placements,
both anchored at `(0,0)`. -/
def boardTwoNames : Board := ⟨(5, 10), [((0, 0), [siLG, siDG])]⟩

/-- The absolute cells of `siLG` anchored at `(0,0)`. -/
def cellsLG00 : Finset Pt := {(0, 0), (1, 0), (2, 0), (2, 1)}

/-- The absolute cells of `siDG` anchored at `(0,0)`. -/
def cellsDG00 : Finset Pt := {(0, 1), (1, 0), (1, 1), (2, 1)}

/-- A tiny 1×1 board with no pre-placed shapes, for witnesses. -/
def board11 : Board := ⟨(1, 1), []⟩

/-- Two distinct templates sharing the name "dup". -/
def tDup1 : ShapeTemplate := ⟨"dup", [(0, {(0, 0)})]⟩

/-- Second template named "dup", with a different footprint. -/
def tDup2 : ShapeTemplate := ⟨"dup", [(0, {(0, 0), (0, 1)})]⟩

/-- A template whose layout 0 is the empty footprint. -/
def tEmptyFoot : ShapeTemplate := ⟨"empty", [(0, (∅ : PointSet))]⟩

/-- Two templates agreeing in name and layout keys but not in layout
contents, for the hash witness. -/
def tHashA : ShapeTemplate := ⟨"h", [(0, {(0, 0)}), (1, {(0, 1)})]⟩

/-- Companion of `tHashA` with different footprints under the same keys. -/
def tHashB : ShapeTemplate := ⟨"h", [(0, {(5, 5)}), (1, {(7, 2)})]⟩

/-- A backend stub that reports one all-ones assignment and then infeasible. -/
def oracleOnce : List (List MipVar) → Option (MipVar → ℚ) :=
  fun cuts => if cuts.isEmpty then some (fun _ => 1) else none

/-- A backend stub that always reports infeasible. -/
def oracleNever : List (List MipVar) → Option (MipVar → ℚ) :=
  fun _ => none

/-- A backend stub that always returns the fractional value 1/2 everywhere. -/
def oracleHalf : List (List MipVar) → Option (MipVar → ℚ) :=
  fun _ => some (fun _ => mkRat 1 2)

/-! Helper lemmas about translation and normalization. -/

theorem mem_translateSet {t : Pt} {s : PointSet} {p : Pt} :
    p ∈ translateSet t s ↔ ∃ q ∈ s, q.1 + t.1 = p.1 ∧ q.2 + t.2 = p.2 := by
  simp [translateSet, Prod.ext_iff]

theorem translateSet_translateSet (a b : Pt) (s : PointSet) :
    translateSet a (translateSet b s) = translateSet (b.1 + a.1, b.2 + a.2) s := by
  ext p
  simp only [mem_translateSet]
  constructor
  · rintro ⟨q, ⟨r, hr, er1, er2⟩, eq1, eq2⟩
    exact ⟨r, hr, by omega, by omega⟩
  · rintro ⟨q, hq, e1, e2⟩
    exact ⟨(q.1 + b.1, q.2 + b.2), ⟨q, hq, rfl, rfl⟩, by omega, by omega⟩

theorem normalize_spec (s : PointSet) (h : s.Nonempty) :
    ∃ t : Pt, normalizePointSet s = some (translateSet t s) ∧
      MinZero (translateSet t s) := by
  refine ⟨(-(s.image Prod.fst).min' (h.image Prod.fst),
           -(s.image Prod.snd).min' (h.image Prod.snd)), ?_, ?_, ?_, ?_⟩
  · simp only [normalizePointSet, dif_pos h, translateSet, sub_eq_add_neg]
  · intro p hp
    rw [mem_translateSet] at hp
    obtain ⟨q, hq, e1, e2⟩ := hp
    have h1 := Finset.min'_le (s.image Prod.fst) q.1 (Finset.mem_image_of_mem _ hq)
    have h2 := Finset.min'_le (s.image Prod.snd) q.2 (Finset.mem_image_of_mem _ hq)
    exact ⟨by omega, by omega⟩
  · have hm := Finset.min'_mem (s.image Prod.fst) (h.image Prod.fst)
    simp only [Finset.mem_image] at hm
    obtain ⟨q, hq, hq1⟩ := hm
    refine ⟨(q.1 + -(s.image Prod.fst).min' (h.image Prod.fst),
             q.2 + -(s.image Prod.snd).min' (h.image Prod.snd)), ?_, by omega⟩
    exact mem_translateSet.mpr ⟨q, hq, rfl, rfl⟩
  · have hm := Finset.min'_mem (s.image Prod.snd) (h.image Prod.snd)
    simp only [Finset.mem_image] at hm
    obtain ⟨q, hq, hq2⟩ := hm
    refine ⟨(q.1 + -(s.image Prod.fst).min' (h.image Prod.fst),
             q.2 + -(s.image Prod.snd).min' (h.image Prod.snd)), ?_, by omega⟩
    exact mem_translateSet.mpr ⟨q, hq, rfl, rfl⟩

theorem translate_minZero_unique (s : PointSet) (t1 t2 : Pt)
    (h1 : MinZero (translateSet t1 s)) (h2 : MinZero (translateSet t2 s)) :
    translateSet t1 s = translateSet t2 s := by
  obtain ⟨hb1, ⟨p1, hp1, hp1z⟩, ⟨q1, hq1, hq1z⟩⟩ := h1
  obtain ⟨hb2, ⟨p2, hp2, hp2z⟩, ⟨q2, hq2, hq2z⟩⟩ := h2
  rw [mem_translateSet] at hp1 hq1 hp2 hq2
  obtain ⟨r1, hr1, er11, er12⟩ := hp1
  obtain ⟨w1, hw1, ew11, ew12⟩ := hq1
  obtain ⟨r2, hr2, er21, er22⟩ := hp2
  obtain ⟨w2, hw2, ew21, ew22⟩ := hq2
  have hb2r1 : 0 ≤ r1.1 + t2.1 ∧ 0 ≤ r1.2 + t2.2 :=
    hb2 (r1.1 + t2.1, r1.2 + t2.2) (mem_translateSet.mpr ⟨r1, hr1, rfl, rfl⟩)
  have hb1r2 : 0 ≤ r2.1 + t1.1 ∧ 0 ≤ r2.2 + t1.2 :=
    hb1 (r2.1 + t1.1, r2.2 + t1.2) (mem_translateSet.mpr ⟨r2, hr2, rfl, rfl⟩)
  have hb2w1 : 0 ≤ w1.1 + t2.1 ∧ 0 ≤ w1.2 + t2.2 :=
    hb2 (w1.1 + t2.1, w1.2 + t2.2) (mem_translateSet.mpr ⟨w1, hw1, rfl, rfl⟩)
  have hb1w2 : 0 ≤ w2.1 + t1.1 ∧ 0 ≤ w2.2 + t1.2 :=
    hb1 (w2.1 + t1.1, w2.2 + t1.2) (mem_translateSet.mpr ⟨w2, hw2, rfl, rfl⟩)
  have ht : t1 = t2 := by
    have e1 : t1.1 = t2.1 := by omega
    have e2 : t1.2 = t2.2 := by omega
    exact Prod.ext e1 e2
  rw [ht]

theorem normalize_translate (t : Pt) (s : PointSet) :
    normalizePointSet (translateSet t s) = normalizePointSet s := by
  rcases s.eq_empty_or_nonempty with rfl | h
  · simp [translateSet, normalizePointSet]
  · obtain ⟨u, hu, hmu⟩ := normalize_spec s h
    obtain ⟨w, hw, hmw⟩ := normalize_spec (translateSet t s) (h.image _)
    rw [hw, hu]
    rw [translateSet_translateSet] at hmw ⊢
    exact congrArg some (translate_minZero_unique s _ u hmw hmu)

theorem rotatePoint_90 (q : Pt) : rotatePoint 90 q = (q.2, -q.1) := by
  simp [rotatePoint]

theorem mem_rot90set {s : PointSet} {p : Pt} :
    p ∈ rot90set s ↔ ∃ q ∈ s, q.2 = p.1 ∧ -q.1 = p.2 := by
  simp [rot90set, rotatePoint_90, Prod.ext_iff]

theorem rot90set_translate (t : Pt) (s : PointSet) :
    rot90set (translateSet t s) = translateSet (rotatePoint 90 t) (rot90set s) := by
  ext p
  rw [rotatePoint_90]
  simp only [mem_rot90set, mem_translateSet]
  constructor
  · rintro ⟨q, ⟨r, hr, e1, e2⟩, f1, f2⟩
    exact ⟨(r.2, -r.1), ⟨r, hr, rfl, rfl⟩, by omega, by omega⟩
  · rintro ⟨q, ⟨r, hr, e1, e2⟩, f1, f2⟩
    exact ⟨(r.1 + t.1, r.2 + t.2), ⟨r, hr, rfl, rfl⟩, by omega, by omega⟩

theorem rot90_eq_normalize (s : PointSet) :
    rot90 s = normalizePointSet (rot90set s) := by
  unfold rot90 layout_rotated rot90set
  rw [if_neg (by decide), if_neg (by decide)]

theorem rot90_translate (t : Pt) (s : PointSet) :
    rot90 (translateSet t s) = normalizePointSet (rot90set s) := by
  rw [rot90_eq_normalize, rot90set_translate, normalize_translate]

theorem rot90set_four (s : PointSet) :
    rot90set (rot90set (rot90set (rot90set s))) = s := by
  have hcomp : ∀ p : Pt,
      rotatePoint 90 (rotatePoint 90 (rotatePoint 90 (rotatePoint 90 p))) = p := by
    intro p
    simp [rotatePoint]
  ext p
  simp only [rot90set, Finset.mem_image]
  constructor
  · rintro ⟨a, ⟨b, ⟨c, ⟨d, hd, rfl⟩, rfl⟩, rfl⟩, rfl⟩
    rwa [hcomp]
  · intro hp
    exact ⟨_, ⟨_, ⟨_, ⟨p, hp, rfl⟩, rfl⟩, rfl⟩, hcomp p⟩

/-- C4 (amended to non-empty footprints): for every non-empty footprint,
applying the 90° rotation transform of `layout_rotated` four times in
succession yields a set, and that set equals the original footprint after
normalization — rotation is cyclic of order 4. -/
theorem rotation_four_times_yields_normalized_original (P : PointSet)
    (h : P.Nonempty) :
    rotFour P = normalizePointSet P ∧ ∃ Q, rotFour P = some Q := by
  have h1 : (rot90set P).Nonempty := h.image _
  have h2 : (rot90set (rot90set P)).Nonempty := h1.image _
  have h3 : (rot90set (rot90set (rot90set P))).Nonempty := h2.image _
  obtain ⟨t1, e1, -⟩ := normalize_spec (rot90set P) h1
  obtain ⟨t2, e2, -⟩ := normalize_spec (rot90set (rot90set P)) h2
  obtain ⟨t3, e3, -⟩ := normalize_spec (rot90set (rot90set (rot90set P))) h3
  have s1 : rot90 P = some (translateSet t1 (rot90set P)) :=
    (rot90_eq_normalize P).trans e1
  have s2 : rot90 (translateSet t1 (rot90set P)) =
      some (translateSet t2 (rot90set (rot90set P))) :=
    (rot90_translate t1 (rot90set P)).trans e2
  have s3 : rot90 (translateSet t2 (rot90set (rot90set P))) =
      some (translateSet t3 (rot90set (rot90set (rot90set P)))) :=
    (rot90_translate t2 (rot90set (rot90set P))).trans e3
  have s4 : rot90 (translateSet t3 (rot90set (rot90set (rot90set P)))) =
      normalizePointSet P := by
    rw [rot90_translate, rot90set_four]
  have key : rotFour P = normalizePointSet P := by
    rw [rotFour, s1, Option.some_bind, s2, Option.some_bind, s3, Option.some_bind, s4]
  refine ⟨key, ?_⟩
  obtain ⟨t, e, -⟩ := normalize_spec P h
  exact ⟨_, key.trans e⟩

/-- C4 witness: the theorem applied to the `light_green` layout-0 footprint. -/
theorem rotation_four_times_witness :
    rotFour cellsLG00 = normalizePointSet cellsLG00 ∧ ∃ Q, rotFour cellsLG00 = some Q :=
  rotation_four_times_yields_normalized_original cellsLG00 (by decide)

/-- C4 counterexample: on the empty footprint the 90° rotation raises
(`min()` of an empty sequence), so applying the rotation four times yields
no set at all, refuting the claim for the empty footprint. -/
theorem rotation_empty_footprint_raises : rotFour (∅ : PointSet) = none := by decide

/-- C5 (amended to rotations 90, 180, 270): for every non-empty footprint
and every angle among 90, 180 and 270, `layout_rotated` succeeds and its
result is renormalized so that its minimum row and minimum column are 0;
for angle 0 the footprint is returned unchanged (so not renormalized). -/
theorem rotated_layout_touches_origin (P : PointSet) (h : P.Nonempty) (r : Int)
    (hr : r = 90 ∨ r = 180 ∨ r = 270) :
    (∃ Q, layout_rotated P r = some Q ∧ MinZero Q) ∧ layout_rotated P 0 = some P := by
  constructor
  · obtain ⟨t, e, m⟩ := normalize_spec (P.image (rotatePoint r)) (h.image _)
    have hrot : layout_rotated P r = normalizePointSet (P.image (rotatePoint r)) := by
      rcases hr with rfl | rfl | rfl <;>
        · unfold layout_rotated
          rw [if_neg (by decide), if_neg (by decide)]
    exact ⟨_, hrot.trans e, m⟩
  · unfold layout_rotated
    rw [if_neg (by decide), if_pos rfl]

/-- C5 witness: the theorem applied to the `light_green` layout-0 footprint
at 90°. -/
theorem rotated_layout_touches_origin_witness :
    (∃ Q, layout_rotated cellsLG00 90 = some Q ∧ MinZero Q) ∧
      layout_rotated cellsLG00 0 = some cellsLG00 :=
  rotated_layout_touches_origin cellsLG00 (by decide) 90 (Or.inl rfl)

/-- C5 counterexample: at angle 0 `layout_rotated` returns the footprint
unchanged without renormalizing, so for the non-normalized footprint
`{(1, 1)}` the result's minimum row and column are 1, not 0. -/
theorem rotation_zero_skips_renormalization :
    layout_rotated ({((1 : Int), (1 : Int))} : PointSet) 0 = some {(1, 1)} ∧
      ¬ MinZero ({((1 : Int), (1 : Int))} : PointSet) := by
  constructor
  · decide
  · decide

/-- C9: for every footprint and every rotation argument outside
{0, 90, 180, 270}, `layout_rotated` raises immediately (modelled as `none`);
the angle is never clamped to a valid value and no set is returned. -/
theorem invalid_rotation_raises (layout : PointSet) (rotation : Int)
    (h : rotation ∉ VALID_ROTATIONS) : layout_rotated layout rotation = none := by
  unfold layout_rotated
  rw [if_pos h]

/-- C9 witness: the theorem applied at rotation 45. -/
theorem invalid_rotation_raises_witness :
    layout_rotated ({((0 : Int), (0 : Int))} : PointSet) 45 = none :=
  invalid_rotation_raises _ 45 (by decide)

/-! Helper lemmas about `Board.fill_grid`. -/

theorem fill_grid_snd (si : ShapeInstance) (g : Finset (Pt × String))
    (hf : si.fill_grid = some g) : ∀ e ∈ g, e.2 = si.template.name := by
  intro e he
  unfold ShapeInstance.fill_grid at hf
  cases hgc : si.get_current_grid with
  | none => rw [hgc] at hf; cases hf
  | some cells =>
    rw [hgc] at hf
    simp only [Option.some_bind] at hf
    split at hf
    · injection hf with hf
      subst hf
      simp only [Finset.mem_image] at he
      obtain ⟨p, hp, hpe⟩ := he
      rw [← hpe]
    · cases hf

theorem gridOfInstances_sub (anchor : Pt) :
    ∀ (sis : List ShapeInstance) (G : Finset (Pt × String)),
      gridOfInstances anchor sis = some G →
      ∀ si ∈ sis, ∃ g, si.fill_grid = some g ∧ shiftGrid anchor g ⊆ G := by
  intro sis
  induction sis with
  | nil => intro G hG si hsi; cases hsi
  | cons head tail ih =>
    intro G hG si hsi
    unfold gridOfInstances at hG
    cases hfg : head.fill_grid with
    | none => rw [hfg] at hG; cases hG
    | some g =>
      rw [hfg] at hG
      cases hrest : gridOfInstances anchor tail with
      | none => rw [hrest] at hG; cases hG
      | some gr =>
        rw [hrest] at hG
        simp only [Option.some_bind, Option.pure_def] at hG
        injection hG with hG
        subst hG
        rcases List.mem_cons.mp hsi with rfl | hsi
        · exact ⟨g, hfg, Finset.subset_union_left⟩
        · obtain ⟨g', h1, h2⟩ := ih gr hrest si hsi
          exact ⟨g', h1, h2.trans Finset.subset_union_right⟩

theorem gridOfPlacements_sub :
    ∀ (pls : List (Pt × List ShapeInstance)) (G : Finset (Pt × String)),
      gridOfPlacements pls = some G →
      ∀ anchor sis, (anchor, sis) ∈ pls →
        ∃ H, gridOfInstances anchor sis = some H ∧ H ⊆ G := by
  intro pls
  induction pls with
  | nil => intro G hG anchor sis hmem; cases hmem
  | cons head tail ih =>
    intro G hG anchor sis hmem
    obtain ⟨ha, hsis⟩ := head
    unfold gridOfPlacements at hG
    cases hfg : gridOfInstances ha hsis with
    | none => rw [hfg] at hG; cases hG
    | some g =>
      rw [hfg] at hG
      cases hrest : gridOfPlacements tail with
      | none => rw [hrest] at hG; cases hG
      | some gr =>
        rw [hrest] at hG
        simp only [Option.some_bind, Option.pure_def] at hG
        injection hG with hG
        subst hG
        rcases List.mem_cons.mp hmem with heq | hmem
        · injection heq with e1 e2
          subst e1; subst e2
          exact ⟨g, hfg, Finset.subset_union_left⟩
        · obtain ⟨H, h1, h2⟩ := ih gr hrest anchor sis hmem
          exact ⟨H, h1, h2.trans Finset.subset_union_right⟩

theorem mem_fill_grid_of_instance (b : Board) (G : Finset (Pt × String))
    (hG : b.fill_grid = some G) (anchor : Pt) (sis : List ShapeInstance)
    (hpl : (anchor, sis) ∈ b.placements) (si : ShapeInstance) (hsi : si ∈ sis)
    (cs : Finset Pt) (hcs : instanceAbsCells anchor si = some cs)
    (c : Pt) (hc : c ∈ cs) : (c, si.template.name) ∈ G := by
  obtain ⟨H, hH, hHG⟩ := gridOfPlacements_sub b.placements G hG anchor sis hpl
  obtain ⟨g, hg, hgH⟩ := gridOfInstances_sub anchor sis H hH si hsi
  unfold instanceAbsCells at hcs
  rw [hg] at hcs
  simp only [Option.map_some'] at hcs
  injection hcs with hcs
  subst hcs
  simp only [Finset.mem_image] at hc
  obtain ⟨e, he, he1⟩ := hc
  have hsnd : e.2 = si.template.name := by
    simp only [shiftGrid, Finset.mem_image] at he
    obtain ⟨d, hd, hde⟩ := he
    rw [← hde]
    exact fill_grid_snd si g hg d hd
  have hce : (c, si.template.name) = e := by
    rw [← he1, ← hsnd]
  rw [hce]
  exact hHG (hgH he)

theorem mem_gridCellNames {G : Finset (Pt × String)} {c : Pt} {n : String}
    (h : (c, n) ∈ G) : n ∈ gridCellNames G c := by
  simp only [gridCellNames, Finset.mem_image]
  exact ⟨(c, n), Finset.mem_filter.mpr ⟨h, rfl⟩, rfl⟩

/-- C3 (amended): for every Board containing two placements of shapes with
DISTINCT NAMES whose absolute occupied-cell sets intersect,
`is_valid_placement` returns false (overlaps between same-named placements
go undetected because the grid stores name sets); and in general
`is_valid_placement` returns true iff every cell of `fill_grid` has exactly
one covering shape name and lies within `[0, rows) × [0, cols)`. -/
theorem is_valid_placement_characterization (b : Board) :
    (∀ (a1 a2 : Pt) (sis1 sis2 : List ShapeInstance) (si1 si2 : ShapeInstance)
       (s1 s2 : Finset Pt) (G : Finset (Pt × String)),
       b.fill_grid = some G →
       (a1, sis1) ∈ b.placements → si1 ∈ sis1 →
       (a2, sis2) ∈ b.placements → si2 ∈ sis2 →
       si1.template.name ≠ si2.template.name →
       instanceAbsCells a1 si1 = some s1 →
       instanceAbsCells a2 si2 = some s2 →
       (s1 ∩ s2).Nonempty →
       b.is_valid_placement = some false) ∧
    (b.is_valid_placement = some true ↔
      ∃ G, b.fill_grid = some G ∧
        ∀ cell ∈ G.image Prod.fst, (gridCellNames G cell).card = 1 ∧
          0 ≤ cell.1 ∧ cell.1 < (b.shape_board.1 : Int) ∧
          0 ≤ cell.2 ∧ cell.2 < (b.shape_board.2 : Int)) := by
  constructor
  · intro a1 a2 sis1 sis2 si1 si2 s1 s2 G hG hp1 hs1 hp2 hs2 hname hc1 hc2 hint
    obtain ⟨c, hc⟩ := hint
    obtain ⟨hcs1, hcs2⟩ := Finset.mem_inter.mp hc
    have hm1 : (c, si1.template.name) ∈ G :=
      mem_fill_grid_of_instance b G hG a1 sis1 hp1 si1 hs1 s1 hc1 c hcs1
    have hm2 : (c, si2.template.name) ∈ G :=
      mem_fill_grid_of_instance b G hG a2 sis2 hp2 si2 hs2 s2 hc2 c hcs2
    have hn1 : si1.template.name ∈ gridCellNames G c := mem_gridCellNames hm1
    have hn2 : si2.template.name ∈ gridCellNames G c := mem_gridCellNames hm2
    have hcard : 1 < (gridCellNames G c).card :=
      Finset.one_lt_card.mpr ⟨_, hn1, _, hn2, hname⟩
    unfold Board.is_valid_placement
    rw [hG]
    simp only [Option.map_some']
    have : ¬ (∀ cell ∈ G.image Prod.fst, validCell b G cell) := by
      intro hall
      have hkey : c ∈ G.image Prod.fst := Finset.mem_image_of_mem Prod.fst hm1
      obtain ⟨hle, -⟩ := hall c hkey
      omega
    rw [decide_eq_false this]
  · cases hG : b.fill_grid with
    | none =>
      constructor
      · intro hv
        unfold Board.is_valid_placement at hv
        rw [hG] at hv
        cases hv
      · rintro ⟨G, hGe, -⟩
        cases hGe
    | some G =>
      unfold Board.is_valid_placement
      rw [hG]
      simp only [Option.map_some', Option.some_inj]
      constructor
      · intro hv
        have hP := of_decide_eq_true hv
        refine ⟨G, rfl, ?_⟩
        intro cell hcell
        obtain ⟨hle, hrest⟩ := hP cell hcell
        have hne : (gridCellNames G cell).Nonempty := by
          simp only [Finset.mem_image] at hcell
          obtain ⟨e, he, he1⟩ := hcell
          refine ⟨e.2, mem_gridCellNames ?_⟩
          rw [← he1]
          exact he
        have hpos := Finset.card_pos.mpr hne
        exact ⟨by omega, hrest⟩
      · rintro ⟨G', hGe, hall⟩
        subst hGe
        apply decide_eq_true
        intro cell hcell
        obtain ⟨h1, hrest⟩ := hall cell hcell
        exact ⟨by omega, hrest⟩

set_option maxHeartbeats 1600000 in
/-- C3 witness: the distinct-name half of the theorem applied to a board
where overlapping `light_green` and `dark_green` placements share the
anchor `(0, 0)`. -/
theorem is_valid_placement_witness :
    Board.is_valid_placement boardTwoNames = some false :=
  (is_valid_placement_characterization boardTwoNames).1 (0, 0) (0, 0)
    [siLG, siDG] [siLG, siDG] siLG siDG cellsLG00 cellsDG00
    (boardTwoNames.fill_grid.get (by decide)) (Option.some_get (by decide)).symm
    (by decide) (by decide) (by decide) (by decide) (by decide)
    (by decide) (by decide) (by decide)

set_option maxHeartbeats 1600000 in
/-- C3 counterexample: two overlapping placements of the SAME shape
(`light_green` anchored at `(0,0)` and at `(1,0)`): their absolute
occupied-cell sets intersect, yet `is_valid_placement` returns true, because
the per-cell name sets collapse the duplicate name.  This refutes the
claim's unrestricted first sentence. -/
theorem same_name_overlap_reported_valid :
    instanceAbsCells (0, 0) siLG = some cellsLG00 ∧
    instanceAbsCells (1, 0) siLG = some {(1, 0), (2, 0), (3, 0), (3, 1)} ∧
    (cellsLG00 ∩ ({(1, 0), (2, 0), (3, 0), (3, 1)} : Finset Pt)).Nonempty ∧
    Board.is_valid_placement boardSameName = some true :=
  ⟨by decide, by decide, by decide, by decide⟩

/-- C10: `ShapeTemplate.__hash__` returns equal values for any two templates
with equal names and equal layout key sets, even when the footprint point
sets differ — the hash depends only on the name and the layout indices,
because `frozenset` of the inner dict keeps only its keys. -/
theorem shape_hash_ignores_layout_contents (hashStr : String → Int)
    (hashKeySet : Finset Nat → Int) (t1 t2 : ShapeTemplate)
    (hname : t1.name = t2.name) (hkeys : layoutKeys t1 = layoutKeys t2) :
    shapeTemplateHash hashStr hashKeySet t1 = shapeTemplateHash hashStr hashKeySet t2 := by
  unfold shapeTemplateHash
  rw [hname, hkeys]

/-- C10 witness: two templates with the same name and key set but different
footprints hash identically. -/
theorem shape_hash_witness :
    tHashA.layouts ≠ tHashB.layouts ∧
    shapeTemplateHash (fun s => (s.length : Int)) (fun k => (k.card : Int)) tHashA =
      shapeTemplateHash (fun s => (s.length : Int)) (fun k => (k.card : Int)) tHashB :=
  ⟨by decide,
   shape_hash_ignores_layout_contents _ _ tHashA tHashB (by decide) (by decide)⟩

/-! Helper lemmas about the name dict built by `mip_solver`. -/

theorem shape_names_foldl_nodup (l : List ShapeTemplate) :
    ∀ acc : List String, acc.Nodup →
      (l.foldl (fun acc s => if s.name ∈ acc then acc else acc ++ [s.name]) acc).Nodup := by
  induction l with
  | nil => intro acc h; exact h
  | cons head tail ih =>
    intro acc h
    simp only [List.foldl_cons]
    by_cases hm : head.name ∈ acc
    · rw [if_pos hm]
      exact ih acc h
    · rw [if_neg hm]
      apply ih
      rw [List.nodup_append]
      refine ⟨h, List.nodup_singleton _, ?_⟩
      intro a ha hb
      rw [List.mem_singleton] at hb
      subst hb
      exact hm ha

theorem shape_names_foldl_mem (l : List ShapeTemplate) :
    ∀ (acc : List String) (n : String),
      (n ∈ l.foldl (fun acc s => if s.name ∈ acc then acc else acc ++ [s.name]) acc ↔
        n ∈ acc ∨ n ∈ l.map ShapeTemplate.name) := by
  induction l with
  | nil => intro acc n; simp
  | cons head tail ih =>
    intro acc n
    simp only [List.foldl_cons, List.map_cons, List.mem_cons]
    by_cases hm : head.name ∈ acc
    · rw [if_pos hm, ih]
      constructor
      · rintro (h | h)
        · exact Or.inl h
        · exact Or.inr (Or.inr h)
      · rintro (h | h | h)
        · exact Or.inl h
        · subst h; exact Or.inl hm
        · exact Or.inr h
    · rw [if_neg hm, ih]
      simp only [List.mem_append, List.mem_singleton]
      tauto

theorem shape_name_map_mem (shapes : List ShapeTemplate) (t : ShapeTemplate)
    (ht : t ∈ shapes) : shape_name_map shapes t.name ≠ none := by
  unfold shape_name_map
  have hmem : t ∈ shapes.filter (fun s => s.name = t.name) :=
    List.mem_filter.mpr ⟨ht, by simp⟩
  intro hnone
  have hne : shapes.filter (fun s => s.name = t.name) ≠ [] := by
    intro he
    rw [he] at hmem
    cases hmem
  have hs := List.getLast?_isSome.mpr hne
  rw [hnone] at hs
  cases hs

/-- C8 (amended): `mip_solver` does NOT detect these configuration errors.
Duplicate names are silently collapsed: the model is built over
`shape_names`, which is duplicate-free and contains exactly the names of
`shapes_to_place`, a later template with a duplicated name overwriting an
earlier one in `shape_name_map`.  An empty footprint is not specially
detected either: computing its occupied cells during model construction
fails (an uncaught `ValueError` from `min()` of an empty sequence), before
any solve is attempted. -/
theorem model_build_collapses_duplicates (shapes : List ShapeTemplate) :
    (shape_names shapes).Nodup ∧
    (∀ n, n ∈ shape_names shapes ↔ n ∈ shapes.map ShapeTemplate.name) ∧
    (∀ t ∈ shapes, shape_name_map shapes t.name ≠ none) ∧
    (∀ t : ShapeTemplate, t.layouts.lookup 0 = some (∅ : PointSet) →
      get_occupied_cells t 0 90 0 0 = none) := by
  refine ⟨?_, ?_, ?_, ?_⟩
  · exact shape_names_foldl_nodup shapes [] List.nodup_nil
  · intro n
    unfold shape_names
    rw [shape_names_foldl_mem]
    simp
  · intro t ht
    exact shape_name_map_mem shapes t ht
  · intro t hl
    have h90 : layout_rotated (∅ : PointSet) 90 = none := by decide
    simp [get_occupied_cells, Board.occupied_cells, Board.fill_grid,
      gridOfPlacements, gridOfInstances, ShapeInstance.fill_grid,
      ShapeInstance.get_current_grid, hl, h90]

/-- C8 witness: the theorem applied to the concrete duplicate pair and to a
template with an empty footprint. -/
theorem model_build_collapses_duplicates_witness :
    (shape_names [tDup1, tDup2]).Nodup ∧
    ("dup" ∈ shape_names [tDup1, tDup2] ↔
      "dup" ∈ [tDup1, tDup2].map ShapeTemplate.name) ∧
    shape_name_map [tDup1, tDup2] tDup1.name ≠ none ∧
    get_occupied_cells tEmptyFoot 0 90 0 0 = none :=
  ⟨(model_build_collapses_duplicates [tDup1, tDup2]).1,
   (model_build_collapses_duplicates [tDup1, tDup2]).2.1 "dup",
   (model_build_collapses_duplicates [tDup1, tDup2]).2.2.1 tDup1 (by decide),
   (model_build_collapses_duplicates [tDup1, tDup2]).2.2.2 tEmptyFoot (by decide)⟩

/-- C8 counterexample: two distinct templates both named "dup" are not
rejected at model-build time: the build proceeds, the name list silently
collapses to a single entry, and the later template wins. -/
theorem duplicate_names_not_rejected :
    tDup1 ≠ tDup2 ∧ shape_names [tDup1, tDup2] = ["dup"] ∧
      shape_name_map [tDup1, tDup2] "dup" = some tDup2 :=
  ⟨by decide, by decide, by decide⟩

/-- C2: for an assignment satisfying the coverage constraints built by
`mip_solver`, every board cell's coverage count — pre-occupied indicator
plus the sum of the decision variables covering it — is at most 1, and
equals exactly 1 when `allow_holes` is false; when `allow_holes` is true
the model imposes only the linking equalities and the `≤ 1` inequalities
(the `== 1` equalities are absent). -/
theorem coverage_constraints_characterization
    (shapes : List ShapeTemplate) (b : Board) (occ : Finset Pt)
    (allow_holes : Bool) (x : MipVar → Nat) (y : Pt → Nat)
    (_hocc : b.occupied_cells = some occ)
    (hsat : CoverageModelSat shapes b occ allow_holes x y) :
    (∀ cell ∈ boardCellsList b,
      coverCount shapes b occ x cell ≤ 1 ∧
        (allow_holes = false → coverCount shapes b occ x cell = 1)) ∧
    (CoverageModelSat shapes b occ true x y ↔
      LinkConstraintsSat shapes b occ x y ∧ NoOverlapConstraintsSat b y) := by
  obtain ⟨hlink, hle, heq⟩ := hsat
  constructor
  · intro cell hcell
    constructor
    · rw [← hlink cell hcell]
      exact hle cell hcell
    · intro hah
      rw [← hlink cell hcell]
      exact heq hah cell hcell
  · constructor
    · rintro ⟨l, o, -⟩
      exact ⟨l, o⟩
    · rintro ⟨l, o⟩
      exact ⟨l, o, fun hcontra => by cases hcontra⟩

set_option maxHeartbeats 1600000 in
/-- C2 witness: the theorem applied to a 1×1 empty board, one shape, the
all-zero assignment and `allow_holes = true`. -/
theorem coverage_constraints_witness :
    coverCount [SHAPE_LG] board11 ∅ (fun _ => 0) (0, 0) ≤ 1 ∧
      (true = false → coverCount [SHAPE_LG] board11 ∅ (fun _ => 0) (0, 0) = 1) :=
  (coverage_constraints_characterization [SHAPE_LG] board11 ∅ true (fun _ => 0)
    (fun _ => 0) (by decide) (by decide)).1 (0, 0) (by decide)

/-! Helper lemmas about the rational helpers and the read-back. -/

theorem qsub_eq (a b : ℚ) : qsub a b = a - b := by
  have ha : ((a.den : ℚ)) ≠ 0 := by
    exact_mod_cast a.den_nz
  have hb : ((b.den : ℚ)) ≠ 0 := by
    exact_mod_cast b.den_nz
  unfold qsub
  rw [Rat.mkRat_eq_div]
  conv_rhs => rw [← Rat.num_div_den a, ← Rat.num_div_den b]
  rw [div_sub_div _ _ ha hb]
  push_cast
  ring_nf

theorem qabs_eq (q : ℚ) : qabs q = |q| := by
  unfold qabs
  split
  · rename_i hlt
    rw [abs_of_neg hlt]
    rfl
  · rename_i hge
    rw [abs_of_nonneg (le_of_not_lt hge)]

theorem nearOne_iff (v : ℚ) : nearOne v = true ↔ |v - 1| < mipTolerance := by
  unfold nearOne
  rw [decide_eq_true_eq, qabs_eq, qsub_eq]

theorem nearOne_of_binary (v : ℚ) (hb : v = 0 ∨ v = 1) (h : nearOne v = true) :
    v = 1 := by
  rcases hb with rfl | rfl
  · exfalso
    revert h
    decide
  · rfl

theorem list_sum_map_ones (a : MipVar → ℚ) :
    ∀ l : List MipVar, (∀ v ∈ l, a v = 1) → (l.map a).sum = l.length := by
  intro l
  induction l with
  | nil => intro _; simp
  | cons head tail ih =>
    intro h
    simp only [List.map_cons, List.sum_cons, List.length_cons]
    rw [h head (by simp), ih (fun v hv => h v (by simp [hv]))]
    push_cast
    ring

theorem selected_ne_cut (allVars : List MipVar) (a : MipVar → ℚ)
    (hb : ∀ v, a v = 0 ∨ a v = 1) (cut : List MipVar)
    (hcut : (cut.map a).sum ≤ (cut.length : ℚ) - 1) :
    selectedPositions allVars a ≠ cut := by
  intro heq
  have hall : ∀ v ∈ cut, a v = 1 := by
    intro v hv
    rw [← heq] at hv
    unfold selectedPositions at hv
    rw [List.mem_filter] at hv
    exact nearOne_of_binary (a v) (hb v) hv.2
  rw [list_sum_map_ones a cut hall] at hcut
  linarith

/-- Invariant of the enumeration loop under an honest backend: starting from
equal cut and solution lists with pairwise-distinct solutions, the loop
keeps the solutions pairwise distinct, the final cut list is a prefix of the
final solution list, and at most one solution (the final one) lacks a cut. -/
theorem enumLoop_invariant (allVars : List MipVar)
    (oracle : List (List MipVar) → Option (MipVar → ℚ)) (maxSol : Nat)
    (h : HonestOracle oracle) :
    ∀ (fuel : Nat) (cuts sols : List (List MipVar)), cuts = sols →
      sols.Pairwise (· ≠ ·) →
      ((enumLoop allVars oracle maxSol fuel cuts sols).1.Pairwise (· ≠ ·) ∧
       (enumLoop allVars oracle maxSol fuel cuts sols).2 <+:
         (enumLoop allVars oracle maxSol fuel cuts sols).1 ∧
       (enumLoop allVars oracle maxSol fuel cuts sols).1.length ≤
         (enumLoop allVars oracle maxSol fuel cuts sols).2.length + 1) := by
  intro fuel
  induction fuel with
  | zero =>
    intro cuts sols hcs hpw
    subst hcs
    simp only [enumLoop]
    exact ⟨hpw, ⟨[], by simp⟩, by omega⟩
  | succ fuel ih =>
    intro cuts sols hcs hpw
    cases horacle : oracle cuts with
    | none =>
      subst hcs
      simp only [enumLoop, horacle]
      exact ⟨hpw, ⟨[], by simp⟩, by omega⟩
    | some a =>
      obtain ⟨hbin, hcuts⟩ := h cuts a horacle
      have hne : ∀ s ∈ sols, selectedPositions allVars a ≠ s := by
        intro s hs
        apply selected_ne_cut allVars a hbin s
        apply hcuts
        rw [hcs]
        exact hs
      have hpw' : (sols ++ [selectedPositions allVars a]).Pairwise (· ≠ ·) := by
        rw [List.pairwise_append]
        refine ⟨hpw, List.pairwise_singleton _ _, ?_⟩
        intro x hx y hy
        rw [List.mem_singleton] at hy
        subst hy
        exact fun he => hne x hx he.symm
      simp only [enumLoop, horacle]
      by_cases hmax : maxSol ≤ (sols ++ [selectedPositions allVars a]).length
      · rw [if_pos hmax]
        refine ⟨hpw', ⟨[selectedPositions allVars a], by rw [hcs]⟩, ?_⟩
        subst hcs
        simp
      · rw [if_neg hmax]
        exact ih (cuts ++ [selectedPositions allVars a])
          (sols ++ [selectedPositions allVars a]) (by rw [hcs]) hpw'

/-- C1: under an honest exact backend (binary values, every added
`Exclude_Solution` cut satisfied), the enumeration loop of `mip_solver`
records as cuts exactly the per-solution selected-variable lists — the cut
list is a prefix of the solution list covering every solution except
possibly the final one (`max_solutions` reached) — and no two returned
solutions carry identical (shape, layout, rotation, anchor) selections. -/
theorem mip_enumeration_no_duplicate_solutions (init_board : Board)
    (shapes : List ShapeTemplate)
    (oracle : List (List MipVar) → Option (MipVar → ℚ)) (max_solutions : Nat)
    (h : HonestOracle oracle) :
    (mipEnumeration init_board shapes oracle max_solutions).1.Pairwise (· ≠ ·) ∧
    (mipEnumeration init_board shapes oracle max_solutions).2 <+:
      (mipEnumeration init_board shapes oracle max_solutions).1 ∧
    (mipEnumeration init_board shapes oracle max_solutions).1.length ≤
      (mipEnumeration init_board shapes oracle max_solutions).2.length + 1 := by
  unfold mipEnumeration
  exact enumLoop_invariant (extractionVars shapes init_board) oracle max_solutions h
    (max_solutions + 1) [] [] rfl List.Pairwise.nil

theorem honest_oracleOnce : HonestOracle oracleOnce := by
  intro cuts a hsome
  unfold oracleOnce at hsome
  by_cases hc : cuts.isEmpty
  · rw [if_pos hc] at hsome
    injection hsome with hsome
    subst hsome
    refine ⟨fun v => Or.inr rfl, ?_⟩
    intro cut hcut
    rw [List.isEmpty_iff] at hc
    subst hc
    cases hcut
  · rw [if_neg hc] at hsome
    cases hsome

/-- C1 witness: the theorem applied to a backend that reports one all-ones
assignment and then infeasible. -/
theorem mip_enumeration_no_duplicate_solutions_witness :
    (mipEnumeration board11 [SHAPE_LG] oracleOnce 2).1.Pairwise (· ≠ ·) ∧
    (mipEnumeration board11 [SHAPE_LG] oracleOnce 2).2 <+:
      (mipEnumeration board11 [SHAPE_LG] oracleOnce 2).1 ∧
    (mipEnumeration board11 [SHAPE_LG] oracleOnce 2).1.length ≤
      (mipEnumeration board11 [SHAPE_LG] oracleOnce 2).2.length + 1 :=
  mip_enumeration_no_duplicate_solutions board11 [SHAPE_LG] oracleOnce 2 honest_oracleOnce

theorem enumLoop_length_le (allVars : List MipVar)
    (oracle : List (List MipVar) → Option (MipVar → ℚ)) (maxSol : Nat) :
    ∀ (fuel : Nat) (cuts sols : List (List MipVar)),
      ((enumLoop allVars oracle maxSol fuel cuts sols).1).length ≤
        max (sols.length + 1) maxSol := by
  intro fuel
  induction fuel with
  | zero =>
    intro cuts sols
    simp only [enumLoop]
    omega
  | succ fuel ih =>
    intro cuts sols
    cases horacle : oracle cuts with
    | none =>
      simp only [enumLoop, horacle]
      omega
    | some a =>
      simp only [enumLoop, horacle]
      by_cases hmax : maxSol ≤ (sols ++ [selectedPositions allVars a]).length
      · rw [if_pos hmax]
        simp only [List.length_append, List.length_singleton]
        omega
      · rw [if_neg hmax]
        have hrec := ih (cuts ++ [selectedPositions allVars a])
          (sols ++ [selectedPositions allVars a])
        simp only [List.length_append, List.length_singleton] at hrec hmax
        omega

/-- C6: for every positive `max_solutions`, `mip_solver` returns at most
`max_solutions` solutions and never an empty list (so `None` is
distinguishable from "fewer than requested"); it returns `None` exactly when
the loop collected zero solutions; and the loop halts permanently — returning
what has been collected — as soon as a solve reports a status that is neither
optimal nor feasible. -/
theorem mip_solver_respects_max_and_signals_infeasible (init_board : Board)
    (shapes : List ShapeTemplate)
    (oracle : List (List MipVar) → Option (MipVar → ℚ)) (max_solutions : Nat)
    (hpos : 1 ≤ max_solutions) :
    (∀ sols, mip_solver_selections init_board shapes oracle max_solutions = some sols →
       sols.length ≤ max_solutions ∧ sols ≠ []) ∧
    (mip_solver_selections init_board shapes oracle max_solutions = none ↔
       (mipEnumeration init_board shapes oracle max_solutions).1 = []) ∧
    (∀ (fuel : Nat) (cuts sols : List (List MipVar)), oracle cuts = none →
       enumLoop (extractionVars shapes init_board) oracle max_solutions (fuel + 1)
         cuts sols = (sols, cuts)) := by
  refine ⟨?_, ?_, ?_⟩
  · intro sols hsols
    unfold mip_solver_selections at hsols
    split at hsols
    · cases hsols
    · rename_i hne
      injection hsols with hsols
      subst hsols
      refine ⟨?_, hne⟩
      have hlen := enumLoop_length_le (extractionVars shapes init_board) oracle
        max_solutions (max_solutions + 1) [] []
      unfold mipEnumeration
      simp only [List.length_nil] at hlen
      omega
  · unfold mip_solver_selections
    split
    · rename_i heq
      simp [heq]
    · rename_i hne
      simp [hne]
  · intro fuel cuts sols hnone
    simp only [enumLoop, hnone]

/-- C6 witness: the theorem applied to an always-infeasible backend with
`max_solutions = 1`. -/
theorem mip_solver_respects_max_witness :
    (∀ sols, mip_solver_selections board11 [SHAPE_LG] oracleNever 1 = some sols →
       sols.length ≤ 1 ∧ sols ≠ []) ∧
    (mip_solver_selections board11 [SHAPE_LG] oracleNever 1 = none ↔
       (mipEnumeration board11 [SHAPE_LG] oracleNever 1).1 = []) ∧
    (∀ (fuel : Nat) (cuts sols : List (List MipVar)), oracleNever cuts = none →
       enumLoop (extractionVars [SHAPE_LG] board11) oracleNever 1 (fuel + 1)
         cuts sols = (sols, cuts)) :=
  mip_solver_respects_max_and_signals_infeasible board11 [SHAPE_LG] oracleNever 1
    (by decide)

/-- C7 (amended): the solution read-back never fails and never rounds: a
decision variable is selected iff its backend-reported value is within 1e-6
of 1; every other value — including a fractional value far from both 0 and 1
— is silently skipped (treated as unselected), with no error raised. -/
theorem read_back_skips_out_of_tolerance (allVars : List MipVar)
    (a : MipVar → ℚ) (v : MipVar) :
    v ∈ selectedPositions allVars a ↔ v ∈ allVars ∧ |a v - 1| < mipTolerance := by
  unfold selectedPositions
  rw [List.mem_filter, nearOne_iff]

/-- C7 counterexample: a backend reporting the fractional value 1/2 — far
outside the 1e-6 tolerance around both 0 and 1 — for every variable is not
treated as fatal: `mip_solver` proceeds, its read-back silently skips every
variable, and it returns one "solution" that selects no variables at all. -/
theorem fractional_values_silently_skipped :
    mipTolerance ≤ |mkRat 1 2 - 1| ∧
    mip_solver_selections board11 [SHAPE_LG] oracleHalf 1 = some [[]] := by
  constructor
  · rw [← qsub_eq, ← qabs_eq]
    decide
  · decide
